import Mathlib

/-!
# Verification of the pujiverse-cinema audio pipeline

A shallow embedding of the repository's raw-PCM-to-WAV audio pipeline
(base64 decode, PCM interpretation, WAV encoding) together with the
application-level call sites in `src/App.tsx` and
`src/services/geminiService.ts`.

The audio utility module (`utils/audio`: `decode`, `decodeAudioData`,
`encodeWAV`) is imported by `src/App.tsx` but its source file is not part of
the available sources, so those three functions are modelled from the
specification (spec.md sections 4.1, 4.2, 4.3, 9).  Float samples are
modelled as rationals: every number occurring in the pipeline
(`int16 / 32768`, products with `32767`/`32768`, the constant `1/2` used by
round-to-nearest) is a dyadic rational far below the precision limit of IEEE
doubles, so rational arithmetic is exact for the computations involved.
-/

deriving instance DecidableEq for Except

/-- Modelled from the spec: the error kinds of section 7 for the missing
`utils/audio` module (`MalformedInputError`, `InvalidSampleLayoutError`,
`InvalidParameterError`, `InconsistentChannelLengthError`). -/
inductive AudioError where
  | malformedInput
  | invalidSampleLayout
  | invalidParameter
  | inconsistentChannelLength
deriving DecidableEq, Repr

/-- Modelled from the spec: the `DecodedAudioBuffer` of section 3 — one or
more channels of float samples tagged with a sample rate; the channel count
is the number of channels. -/
structure DecodedAudioBuffer where
  channels : List (List ℚ)
  sampleRate : ℕ
deriving DecidableEq, Repr

/-! ## Base64 decoder (spec section 4.1, missing `utils/audio` `decode`) -/

/-- Modelled from the spec: the standard base64 alphabet used by the missing
`utils/audio` base64 decoder. -/
def base64Alphabet : List Char :=
  "ABCDEFGHIJKLMNOPQRSTUVWXYZabcdefghijklmnopqrstuvwxyz0123456789+/".data

/-- Modelled from the spec: the character encoding a 6-bit value. -/
def b64char (n : ℕ) : Char := base64Alphabet.getD n 'A'

/-- Modelled from the spec: the 6-bit value of an alphabet character, `none`
for a character outside the base64 alphabet. -/
def b64val (c : Char) : Option ℕ :=
  let i := base64Alphabet.indexOf c
  if i < 64 then some i else none

/-- Modelled from the spec: remove the trailing run of `=` padding
characters. -/
def stripPad (s : List Char) : List Char :=
  (s.reverse.dropWhile (fun c => c == '=')).reverse

/-- Modelled from the spec: decode a padding-free base64 body, four
characters to three bytes, with a final group of two or three characters
yielding one or two bytes; any character outside the alphabet fails with
`MalformedInputError`. -/
def decodeB64Body : List Char → Except AudioError (List ℕ)
  | [] => .ok []
  | [_] => .error .malformedInput
  | [c0, c1] =>
    match b64val c0, b64val c1 with
    | some v0, some v1 => .ok [v0 * 4 + v1 / 16]
    | _, _ => .error .malformedInput
  | [c0, c1, c2] =>
    match b64val c0, b64val c1, b64val c2 with
    | some v0, some v1, some v2 => .ok [v0 * 4 + v1 / 16, v1 % 16 * 16 + v2 / 4]
    | _, _, _ => .error .malformedInput
  | c0 :: c1 :: c2 :: c3 :: rest =>
    match b64val c0, b64val c1, b64val c2, b64val c3 with
    | some v0, some v1, some v2, some v3 => do
      let bs ← decodeB64Body rest
      .ok ((v0 * 4 + v1 / 16) :: (v1 % 16 * 16 + v2 / 4) :: (v2 % 4 * 64 + v3) :: bs)
    | _, _, _, _ => .error .malformedInput

/-- Modelled from the spec: the missing `utils/audio` `decode` on character
lists — strip the `=` padding, then decode the body. -/
def decodeB64 (s : List Char) : Except AudioError (List ℕ) :=
  decodeB64Body (stripPad s)

/-- Modelled from the spec: `decode(input: string) -> RawByteBuffer`, the
base64 decoder of section 4.1 (missing from `utils/audio`). -/
def decode (s : String) : Except AudioError (List ℕ) :=
  decodeB64 s.data

/-- A reference base64 encoder (the test-harness encoder of spec section 8):
three bytes to four characters, with `=` padding for a final group of one or
two bytes. -/
def encodeGroups : List ℕ → List Char
  | [] => []
  | [a] => [b64char (a / 4), b64char (a % 4 * 16), '=', '=']
  | [a, b] => [b64char (a / 4), b64char (a % 4 * 16 + b / 16), b64char (b % 16 * 4), '=']
  | a :: b :: c :: rest =>
    b64char (a / 4) :: b64char (a % 4 * 16 + b / 16) ::
      b64char (b % 16 * 4 + c / 64) :: b64char (c % 64) :: encodeGroups rest

/-- A reference base64 encoder packaged as a `String` producer. -/
def base64Encode (bytes : List ℕ) : String := ⟨encodeGroups bytes⟩

/-! ## PCM decoder (spec section 4.2, missing `utils/audio` `decodeAudioData`) -/

/-- Modelled from the spec: reinterpret an unsigned 16-bit value as a signed
little-endian int16 sample. -/
def toInt16 (v : ℕ) : ℤ :=
  if v < 32768 then (v : ℤ) else (v : ℤ) - 65536

/-- Modelled from the spec: read successive little-endian signed 16-bit
integers from a byte buffer (low byte first). -/
def bytesToInts : List ℕ → List ℤ
  | [] => []
  | [_] => []
  | b0 :: b1 :: rest => toInt16 (b0 + 256 * b1) :: bytesToInts rest

/-- Multiplication of a rational by an integer, written out on the numerator
and denominator so that it is kernel-computable (the library's rational
field operations are irreducible); `qmulInt a m = a * m` is proved below. -/
def qmulInt (a : ℚ) (m : ℤ) : ℚ := mkRat (a.num * m) a.den

/-- Modelled from the spec: an int16 sample divided by 32768.0, the float
sample of the PCM decoder. -/
def intToSample (v : ℤ) : ℚ := mkRat v 32768

/-- Modelled from the spec: the float samples of a PCM byte buffer — each
int16 divided by 32768.0. -/
def pcmSamples (bytes : List ℕ) : List ℚ :=
  (bytesToInts bytes).map intToSample

/-- Modelled from the spec: distribute an interleaved sample list round-robin
across `channelCount` channels (sample `f * channelCount + c` goes to
position `f` of channel `c`). -/
def deinterleave (channelCount : ℕ) (samples : List ℚ) : List (List ℚ) :=
  (List.range channelCount).map fun c =>
    (List.range (samples.length / channelCount)).map fun f =>
      samples.getD (f * channelCount + c) 0

/-- Modelled from the spec: `decodePCM(bytes, sampleRate, channelCount) ->
DecodedAudioBuffer` of section 4.2, standing in for the missing
`utils/audio` `decodeAudioData`.  Preconditions are checked in the order the
spec states them: byte count aligned to the frame size, then positive sample
rate and at least one channel. -/
def decodePCM (bytes : List ℕ) (sampleRate : ℤ) (channelCount : ℕ) :
    Except AudioError DecodedAudioBuffer :=
  if ¬ (2 * channelCount ∣ bytes.length) then .error .invalidSampleLayout
  else if sampleRate ≤ 0 ∨ channelCount < 1 then .error .invalidParameter
  else .ok ⟨deinterleave channelCount (pcmSamples bytes), sampleRate.toNat⟩

/-! ## WAV encoder (spec section 4.3, missing `utils/audio` `encodeWAV`) -/

/-- Modelled from the spec: clamp a float sample to `[-1.0, 1.0]`. -/
def clamp (x : ℚ) : ℚ := if x < -1 then -1 else if 1 < x then 1 else x

/-- Round to the nearest integer (halves towards positive infinity), the
kernel-computable form of `round` on `ℚ` (`roundQ x = round x` = `⌊x + 1/2⌋`
is proved below). -/
def roundQ (x : ℚ) : ℤ := (2 * x.num + (x.den : ℤ)) / (2 * (x.den : ℤ))

/-- Modelled from the spec: convert a float sample to a signed 16-bit
integer — clamp to `[-1.0, 1.0]`, scale (by 32767 for non-negative samples
and by 32768 for negative ones, the clamp-then-scale choice pinned down by
sections 8 and 9), and round to nearest. -/
def floatTo16 (x : ℚ) : ℤ :=
  let c := clamp x
  roundQ (if c < 0 then qmulInt c 32768 else qmulInt c 32767)

/-- The float-to-int16 conversion exactly as claim C2 words it: clamp to
`[-1.0, 1.0]`, multiply by 32767, round to nearest.  Kept separate from
`floatTo16` so the two can be compared. -/
def floatTo16ClaimFormula (x : ℚ) : ℤ := roundQ (qmulInt (clamp x) 32767)

/-- Modelled from the spec: serialize signed 16-bit integers as little-endian
byte pairs (two's complement, low byte first). -/
def intsToBytes : List ℤ → List ℕ
  | [] => []
  | v :: rest => (v % 65536).toNat % 256 :: (v % 65536).toNat / 256 :: intsToBytes rest

/-- Modelled from the spec: one output frame per recursion step — the heads
of all channels, then the tails, for the given number of frames. -/
def interleaveN : ℕ → List (List ℚ) → List ℚ
  | 0, _ => []
  | n + 1, cs => cs.filterMap List.head? ++ interleaveN n (cs.map List.tail)

/-- Modelled from the spec: interleave the channels of a buffer frame-major
(channel 0 sample 0, channel 1 sample 0, …), the inverse order of the
decoder's round-robin split. -/
def interleave (cs : List (List ℚ)) : List ℚ :=
  interleaveN (cs.headD []).length cs

/-- Modelled from the spec: a 16-bit unsigned value as two little-endian
bytes. -/
def u16le (n : ℕ) : List ℕ := [n % 256, n / 256 % 256]

/-- Modelled from the spec: a 32-bit unsigned value as four little-endian
bytes. -/
def u32le (n : ℕ) : List ℕ :=
  [n % 256, n / 256 % 256, n / 65536 % 256, n / 16777216 % 256]

/-- Modelled from the spec: the byte values of an ASCII marker string. -/
def asciiBytes (s : String) : List ℕ := s.data.map Char.toNat

/-- Modelled from the spec: the number of frames of a buffer — the length of
its first channel. -/
def numFrames (b : DecodedAudioBuffer) : ℕ := (b.channels.headD []).length

/-- Modelled from the spec: the fixed 44-byte RIFF/WAVE PCM header of the
table in section 4.3. -/
def wavHeader (numChannels nFrames sampleRate : ℕ) : List ℕ :=
  let dataSize := nFrames * numChannels * 2
  asciiBytes "RIFF" ++ u32le (36 + dataSize) ++ asciiBytes "WAVE" ++
  asciiBytes "fmt " ++ u32le 16 ++ u16le 1 ++ u16le numChannels ++
  u32le sampleRate ++ u32le (sampleRate * numChannels * 2) ++
  u16le (numChannels * 2) ++ u16le 16 ++ asciiBytes "data" ++ u32le dataSize

/-- Modelled from the spec: the interleaved 16-bit little-endian PCM data
bytes of a buffer (the `Samples` region at offset 44). -/
def pcmData (b : DecodedAudioBuffer) : List ℕ :=
  intsToBytes ((interleave b.channels).map floatTo16)

/-- Modelled from the spec: `encodeWAV(audio: DecodedAudioBuffer) ->
WAVContainer` of section 4.3, standing in for the missing `utils/audio`
`encodeWAV`: ragged channels fail with `InconsistentChannelLengthError`,
otherwise the 44-byte header is followed by the interleaved sample data. -/
def encodeWAV (b : DecodedAudioBuffer) : Except AudioError (List ℕ) :=
  if b.channels.all (fun c => c.length == numFrames b) then
    .ok (wavHeader b.channels.length (numFrames b) b.sampleRate ++ pcmData b)
  else .error .inconsistentChannelLength

/-- The bytes at offsets `i .. i + k - 1` of a byte list. -/
def extractBytes (i k : ℕ) (w : List ℕ) : List ℕ := (w.drop i).take k

/-! ## Application call sites (`src/App.tsx`, `src/services/geminiService.ts`) -/

/-- One invocation of a pipeline stage in `handleGenerate` of `src/App.tsx`,
recorded together with the input it consumes and, for the PCM stage, the
sample rate and channel count it is invoked with. -/
inductive PipelineStage where
  | base64Decode (input : String)
  | pcmDecode (bytes : List ℕ) (sampleRate : ℤ) (channelCount : ℕ)
  | wavEncode (buffer : DecodedAudioBuffer)
deriving DecidableEq

/-- The audio branch of `handleGenerate` (`src/App.tsx` lines 114–119):
base64-decode the payload, PCM-decode the bytes at 24000 Hz mono, WAV-encode
the buffer.  Returns the stages actually invoked, in order, alongside the
result. -/
def handleGenerateAudioTrace (audioBase64 : String) :
    List PipelineStage × Except AudioError (List ℕ) :=
  match decode audioBase64 with
  | .error e => ([.base64Decode audioBase64], .error e)
  | .ok audioBytes =>
    match decodePCM audioBytes 24000 1 with
    | .error e => ([.base64Decode audioBase64, .pcmDecode audioBytes 24000 1], .error e)
    | .ok audioBuffer =>
      ([.base64Decode audioBase64, .pcmDecode audioBytes 24000 1, .wavEncode audioBuffer],
        encodeWAV audioBuffer)

/-- The fields of the `GeneratedVoiceover` result of
`generateMovieVoiceover` (`src/services/geminiService.ts`) that the audio
and thumbnail handling decides. -/
structure GenResult where
  script : String
  audioBase64 : String
  thumbnailBase64 : Option String
deriving DecidableEq

/-- The outcome of the thumbnail-generation step of
`generateMovieVoiceover`: either the inner `try` completes with the optional
`imageBytes` of the response (lines 221–240), or it throws and the inner
`catch` is taken (lines 241–245). -/
inductive ThumbnailOutcome where
  | success (imageBytes : Option String)
  | failure
deriving DecidableEq

/-- The result assembly of `generateMovieVoiceover`
(`src/services/geminiService.ts` lines 199–245 and 340–350), as a function
of the script text and the externally produced speech and thumbnail
responses: the optional inline audio data is checked first (`if
(!audioBase64) throw`, falsy for both a missing field and an empty string);
a thumbnail failure is caught and recorded as `null`
(`imageBytes || null`). -/
def generateMovieVoiceover (script : String) (speechInlineData : Option String)
    (thumbnail : ThumbnailOutcome) : Except String GenResult :=
  match speechInlineData with
  | none => .error "Failed to generate audio."
  | some a =>
    if a = "" then .error "Failed to generate audio."
    else
      let thumbnailBase64 : Option String :=
        match thumbnail with
        | .success (some s) => if s = "" then none else some s
        | .success none => none
        | .failure => none
      .ok ⟨script, a, thumbnailBase64⟩

/-! ## Bridging the kernel-computable arithmetic to the `ℚ` field operations -/

theorem qmulInt_eq (a : ℚ) (m : ℤ) : qmulInt a m = a * (m : ℚ) := by
  rw [qmulInt, Rat.mkRat_eq_div]
  push_cast
  rw [mul_div_right_comm, Rat.num_div_den]

theorem intToSample_eq (v : ℤ) : intToSample v = (v : ℚ) / 32768 := by
  rw [intToSample, Rat.mkRat_eq_div]
  norm_num

theorem roundQ_eq (x : ℚ) : roundQ x = round x := by
  have hd : ((x.den : ℤ) : ℚ) ≠ 0 := by
    have := x.den_nz
    exact_mod_cast this
  have hx : x + 1 / 2 = ((2 * x.num + (x.den : ℤ) : ℤ) : ℚ) / (((2 * x.den : ℕ) : ℕ) : ℚ) := by
    conv_lhs => rw [← Rat.num_div_den x]
    push_cast
    field_simp
    ring
  rw [round_eq, roundQ, hx, Rat.floor_intCast_div_natCast]
  congr 1

theorem clamp_eq (x : ℚ) : clamp x = max (-1) (min 1 x) := by
  rw [clamp]
  split_ifs with h1 h2
  · rw [min_eq_right (by linarith), max_eq_left (by linarith)]
  · rw [min_eq_left (by linarith), max_eq_right (by norm_num)]
  · rw [min_eq_right (by linarith), max_eq_right (by linarith)]

theorem clamp_neg_iff (x : ℚ) : clamp x < 0 ↔ x < 0 := by
  rw [clamp]
  split_ifs with h1 h2
  · constructor <;> intro h <;> linarith
  · constructor <;> intro h <;> linarith
  · exact Iff.rfl

/-- The conversion of the WAV encoder, characterized with the ambient field
and rounding operations of `ℚ`. -/
theorem floatTo16_eq (x : ℚ) :
    floatTo16 x = round (max (-1) (min 1 x) * (if x < 0 then (32768 : ℚ) else 32767)) := by
  rw [floatTo16, ← clamp_eq]
  by_cases hx : x < 0
  · rw [if_pos ((clamp_neg_iff x).mpr hx), if_pos hx, qmulInt_eq, roundQ_eq]
    norm_num
  · rw [if_neg (fun h => hx ((clamp_neg_iff x).mp h)), if_neg hx, qmulInt_eq, roundQ_eq]
    norm_num

/-- Per-sample round-trip: for int16 values up to 16384 the decode-then-
encode conversion is the identity. -/
theorem floatTo16_intToSample {v : ℤ} (h1 : -32768 ≤ v) (h2 : v ≤ 16384) :
    floatTo16 (intToSample v) = v := by
  have hle : (v : ℚ) / 32768 ≤ 1 := by
    rw [div_le_one (by norm_num)]
    exact_mod_cast le_trans h2 (by norm_num)
  have hge : (-1 : ℚ) ≤ (v : ℚ) / 32768 := by
    rw [le_div_iff₀ (by norm_num)]
    have : ((-32768 : ℤ) : ℚ) ≤ (v : ℚ) := by exact_mod_cast h1
    push_cast at this ⊢
    linarith
  have hcl : clamp ((v : ℚ) / 32768) = (v : ℚ) / 32768 := by
    rw [clamp]
    split_ifs with a b
    · linarith
    · linarith
    · rfl
  rw [intToSample_eq, floatTo16, hcl]
  by_cases hv : v < 0
  · have hneg : (v : ℚ) / 32768 < 0 :=
      div_neg_of_neg_of_pos (by exact_mod_cast hv) (by norm_num)
    rw [if_pos hneg, qmulInt_eq, roundQ_eq]
    have : (v : ℚ) / 32768 * ((32768 : ℤ) : ℚ) = ((v : ℤ) : ℚ) := by
      push_cast
      field_simp
    rw [this, round_intCast]
  · have hnn : ¬ ((v : ℚ) / 32768 < 0) :=
      not_lt.mpr (div_nonneg (by exact_mod_cast not_lt.mp hv) (by norm_num))
    rw [if_neg hnn, qmulInt_eq, roundQ_eq, round_eq]
    have key : (v : ℚ) / 32768 * ((32767 : ℤ) : ℚ) + 1 / 2 =
        ((v : ℤ) : ℚ) + ((32768 - 2 * v : ℤ) : ℚ) / (((65536 : ℕ) : ℕ) : ℚ) := by
      push_cast
      field_simp
      ring
    rw [key, Int.floor_int_add, Rat.floor_intCast_div_natCast]
    have : (32768 - 2 * v) / ((65536 : ℕ) : ℤ) = 0 := by omega
    rw [this, add_zero]

/-! ## Byte-level serialization lemmas -/

theorem toInt16_lb (v : ℕ) : -32768 ≤ toInt16 v := by
  rw [toInt16]
  split_ifs <;> omega

theorem toInt16_ub {v : ℕ} (h : v < 65536) : toInt16 v < 32768 := by
  rw [toInt16]
  split_ifs <;> omega

theorem bytesToInts_bounds : ∀ {l : List ℕ}, (∀ b ∈ l, b < 256) →
    ∀ v ∈ bytesToInts l, -32768 ≤ v ∧ v < 32768 := by
  intro l
  induction l using bytesToInts.induct with
  | case1 => simp [bytesToInts]
  | case2 b => simp [bytesToInts]
  | case3 b0 b1 rest ih =>
    intro hb v hv
    rw [bytesToInts] at hv
    rcases List.mem_cons.mp hv with h | h
    · subst h
      have h0 := hb b0 (by simp)
      have h1 := hb b1 (by simp)
      exact ⟨toInt16_lb _, toInt16_ub (by omega)⟩
    · exact ih (fun b hbm => hb b (by simp [hbm])) v h

theorem bytesToInts_length : ∀ l : List ℕ, (bytesToInts l).length = l.length / 2 := by
  intro l
  induction l using bytesToInts.induct with
  | case1 => simp [bytesToInts]
  | case2 b => simp [bytesToInts]
  | case3 b0 b1 rest ih =>
    rw [bytesToInts, List.length_cons, ih]
    simp only [List.length_cons]
    omega

theorem bytesToInts_getD : ∀ (l : List ℕ) (i : ℕ), 2 * i + 1 < l.length →
    (bytesToInts l).getD i 0 = toInt16 (l.getD (2 * i) 0 + 256 * l.getD (2 * i + 1) 0) := by
  intro l
  induction l using bytesToInts.induct with
  | case1 => intro i hi; simp at hi
  | case2 b => intro i hi; simp only [List.length_cons, List.length_nil] at hi; omega
  | case3 b0 b1 rest ih =>
    intro i hi
    match i with
    | 0 => simp [bytesToInts]
    | i + 1 =>
      rw [bytesToInts]
      have h2 : 2 * (i + 1) = 2 * i + 1 + 1 := by omega
      simp only [List.getD_cons_succ, h2]
      have := ih i (by simp at hi; omega)
      simpa using this

theorem intsToBytes_length : ∀ l : List ℤ, (intsToBytes l).length = 2 * l.length := by
  intro l
  induction l with
  | nil => rfl
  | cons v rest ih =>
    rw [intsToBytes, List.length_cons, List.length_cons, List.length_cons, ih]
    omega

theorem intsToBytes_bytesToInts : ∀ l : List ℕ, (∀ b ∈ l, b < 256) → 2 ∣ l.length →
    intsToBytes (bytesToInts l) = l := by
  intro l
  induction l using bytesToInts.induct with
  | case1 => intro _ _; rfl
  | case2 b => intro _ hdvd; simp only [List.length_cons, List.length_nil] at hdvd; omega
  | case3 b0 b1 rest ih =>
    intro hb hdvd
    have h0 := hb b0 (by simp)
    have h1 := hb b1 (by simp)
    rw [bytesToInts, intsToBytes, ih (fun b hbm => hb b (by simp [hbm]))
      (by simp only [List.length_cons] at hdvd ⊢; omega)]
    have hu : ((toInt16 (b0 + 256 * b1)) % 65536).toNat = b0 + 256 * b1 := by
      rw [toInt16]
      split_ifs <;> omega
    rw [hu]
    congr 1
    · omega
    · congr 1
      omega

/-! ## Deinterleave / interleave round-trip -/

theorem getD_drop (l : List ℚ) (m i : ℕ) : (l.drop m).getD i 0 = l.getD (m + i) 0 := by
  simp only [List.getD_eq_getElem?_getD, List.getElem?_drop]

theorem map_getD_range_take (l : List ℚ) : ∀ m, m ≤ l.length →
    (List.range m).map (fun c => l.getD c 0) = l.take m := by
  intro m
  induction m with
  | zero => simp
  | succ k ih =>
    intro h
    have hk : k < l.length := by omega
    rw [List.range_succ, List.map_append, ih (by omega), List.take_succ]
    simp [List.getElem?_eq_getElem hk, List.getD_eq_getElem?_getD]

theorem filterMap_head_map_cons (g : ℕ → ℚ) (t : ℕ → List ℚ) (r : List ℕ) :
    (r.map (fun c => g c :: t c)).filterMap List.head? = r.map g := by
  induction r with
  | nil => rfl
  | cons a r ih => simp [ih]

theorem map_tail_map_cons (g : ℕ → ℚ) (t : ℕ → List ℚ) (r : List ℕ) :
    (r.map (fun c => g c :: t c)).map List.tail = r.map t := by
  induction r with
  | nil => rfl
  | cons a r ih => simp [ih]

theorem deinterleave_channel_length {ch : ℕ} {l : List ℚ} :
    ∀ c ∈ deinterleave ch l, c.length = l.length / ch := by
  intro c hc
  rw [deinterleave] at hc
  obtain ⟨i, _, rfl⟩ := List.mem_map.mp hc
  simp

theorem deinterleave_headD_length {ch : ℕ} (hch : 1 ≤ ch) (l : List ℚ) :
    ((deinterleave ch l).headD []).length = l.length / ch := by
  obtain ⟨m, rfl⟩ : ∃ m, ch = m + 1 := ⟨ch - 1, by omega⟩
  rw [deinterleave, List.range_succ_eq_map, List.map_cons]
  simp

theorem interleaveN_deinterleave {ch : ℕ} (hch : 1 ≤ ch) :
    ∀ (n : ℕ) (l : List ℚ), l.length = ch * n → interleaveN n (deinterleave ch l) = l := by
  intro n
  induction n with
  | zero =>
    intro l hl
    rw [interleaveN]
    exact (List.length_eq_zero.mp (by omega)).symm
  | succ k ih =>
    intro l hl
    have hchle : ch ≤ l.length := by
      rw [hl]
      calc ch = ch * 1 := (Nat.mul_one ch).symm
        _ ≤ ch * (k + 1) := Nat.mul_le_mul_left ch (by omega)
    have hlen : l.length / ch = k + 1 := by
      rw [hl]
      exact Nat.mul_div_cancel_left _ (by omega)
    have hdl : (l.drop ch).length = ch * k := by
      rw [List.length_drop, hl]
      ring_nf
      omega
    have hchan : deinterleave ch l = (List.range ch).map
        (fun c => l.getD c 0 :: (List.range k).map (fun f => (l.drop ch).getD (f * ch + c) 0)) := by
      rw [deinterleave, hlen]
      apply List.map_congr_left
      intro c _
      rw [List.range_succ_eq_map, List.map_cons, List.map_map]
      refine List.cons_eq_cons.mpr ⟨by norm_num, ?_⟩
      apply List.map_congr_left
      intro f _
      show l.getD ((f + 1) * ch + c) 0 = (l.drop ch).getD (f * ch + c) 0
      rw [getD_drop]
      have hidx : (f + 1) * ch + c = ch + (f * ch + c) := by ring
      rw [hidx]
    rw [hchan, interleaveN, filterMap_head_map_cons, map_tail_map_cons,
      map_getD_range_take l ch hchle]
    have hrest : (List.range ch).map
        (fun c => (List.range k).map (fun f => (l.drop ch).getD (f * ch + c) 0)) =
        deinterleave ch (l.drop ch) := by
      rw [deinterleave, hdl, Nat.mul_div_cancel_left _ (by omega : 0 < ch)]
    rw [hrest, ih (l.drop ch) hdl, List.take_append_drop]

theorem interleave_deinterleave {ch n : ℕ} (hch : 1 ≤ ch) (l : List ℚ)
    (hl : l.length = ch * n) : interleave (deinterleave ch l) = l := by
  rw [interleave, deinterleave_headD_length hch, hl,
    Nat.mul_div_cancel_left _ (by omega : 0 < ch)]
  exact interleaveN_deinterleave hch n l hl

/-! ## WAV encoder support lemmas -/

theorem wavHeader_length (nc nf sr : ℕ) : (wavHeader nc nf sr).length = 44 := rfl

/-- The header written out entry by entry (ASCII codes of the markers, and
the little-endian byte decompositions of the numeric fields). -/
theorem wavHeader_explicit (nc nf sr : ℕ) : wavHeader nc nf sr =
    [82, 73, 70, 70,
     (36 + nf * nc * 2) % 256, (36 + nf * nc * 2) / 256 % 256,
     (36 + nf * nc * 2) / 65536 % 256, (36 + nf * nc * 2) / 16777216 % 256,
     87, 65, 86, 69,
     102, 109, 116, 32,
     16, 0, 0, 0,
     1, 0,
     nc % 256, nc / 256 % 256,
     sr % 256, sr / 256 % 256, sr / 65536 % 256, sr / 16777216 % 256,
     sr * nc * 2 % 256, sr * nc * 2 / 256 % 256,
     sr * nc * 2 / 65536 % 256, sr * nc * 2 / 16777216 % 256,
     nc * 2 % 256, nc * 2 / 256 % 256,
     16, 0,
     100, 97, 116, 97,
     nf * nc * 2 % 256, nf * nc * 2 / 256 % 256,
     nf * nc * 2 / 65536 % 256, nf * nc * 2 / 16777216 % 256] := rfl

theorem length_filterMap_head_of_ne_nil : ∀ cs : List (List ℚ), (∀ c ∈ cs, c ≠ []) →
    (cs.filterMap List.head?).length = cs.length := by
  intro cs
  induction cs with
  | nil => intro _; rfl
  | cons c cs ih =>
    intro h
    match c, h c (by simp) with
    | a :: t, _ =>
      rw [List.filterMap_cons]
      simp only [List.head?]
      rw [List.length_cons, List.length_cons, ih (fun c hc => h c (by simp [hc]))]

theorem interleaveN_length : ∀ (n : ℕ) (cs : List (List ℚ)), (∀ c ∈ cs, c.length = n) →
    (interleaveN n cs).length = n * cs.length := by
  intro n
  induction n with
  | zero => intro cs _; rw [interleaveN]; simp
  | succ k ih =>
    intro cs h
    have hne : ∀ c ∈ cs, c ≠ [] := by
      intro c hc hnil
      have := h c hc
      rw [hnil] at this
      simp at this
    have htail : ∀ c ∈ cs.map List.tail, c.length = k := by
      intro c hc
      obtain ⟨c0, hc0, rfl⟩ := List.mem_map.mp hc
      rw [List.length_tail, h c0 hc0]
      omega
    rw [interleaveN, List.length_append, length_filterMap_head_of_ne_nil cs hne,
      ih (cs.map List.tail) htail, List.length_map]
    ring

theorem interleaveN_nil : ∀ n : ℕ, interleaveN n ([] : List (List ℚ)) = [] := by
  intro n
  induction n with
  | zero => rfl
  | succ k ih => rw [interleaveN]; simpa using ih

theorem interleave_length_of_eq {cs : List (List ℚ)}
    (h : ∀ c ∈ cs, c.length = (cs.headD []).length) :
    (interleave cs).length = (cs.headD []).length * cs.length := by
  match cs with
  | [] => rw [interleave, interleaveN_nil]; rfl
  | c :: rest => exact interleaveN_length _ _ h

theorem encodeWAV_ok {b : DecodedAudioBuffer} (h : ∀ c ∈ b.channels, c.length = numFrames b) :
    encodeWAV b = .ok (wavHeader b.channels.length (numFrames b) b.sampleRate ++ pcmData b) := by
  rw [encodeWAV, if_pos]
  rw [List.all_eq_true]
  intro c hc
  exact beq_iff_eq.mpr (h c hc)

theorem pcmData_length {b : DecodedAudioBuffer} (h : ∀ c ∈ b.channels, c.length = numFrames b) :
    (pcmData b).length = 2 * (numFrames b * b.channels.length) := by
  rw [pcmData, intsToBytes_length, List.length_map, interleave_length_of_eq h]
  rfl

/-! ## Base64 lemmas -/

theorem b64val_b64char : ∀ n, n < 64 → b64val (b64char n) = some n := by decide

theorem b64char_ne_pad : ∀ n, n < 64 → b64char n ≠ '=' := by decide

theorem mem_dropWhile_of_neg {p : Char → Bool} {c : Char} :
    ∀ {l : List Char}, c ∈ l → p c = false → c ∈ l.dropWhile p := by
  intro l
  induction l with
  | nil => intro h _; simp at h
  | cons a t ih =>
    intro hc hp
    rcases List.mem_cons.mp hc with rfl | hct
    · rw [List.dropWhile_cons, hp]
      simp
    · rw [List.dropWhile_cons]
      cases hpa : p a
      · simp [hct]
      · exact ih hct hp

theorem mem_stripPad {c : Char} {s : List Char} (hc : c ∈ s) (hne : c ≠ '=') :
    c ∈ stripPad s := by
  rw [stripPad, List.mem_reverse]
  exact mem_dropWhile_of_neg (List.mem_reverse.mpr hc) (by simpa using hne)

theorem stripPad_last_ne (l : List Char) (a : Char) (ha : a ≠ '=') :
    stripPad (l ++ [a]) = l ++ [a] := by
  rw [stripPad, List.reverse_append]
  simp [List.dropWhile_cons, ha]

theorem stripPad_pad1 (l : List Char) (a : Char) (ha : a ≠ '=') :
    stripPad (l ++ [a, '=']) = l ++ [a] := by
  rw [stripPad, List.reverse_append]
  simp [List.dropWhile_cons, ha]

theorem stripPad_pad2 (l : List Char) (a : Char) (ha : a ≠ '=') :
    stripPad (l ++ [a, '=', '=']) = l ++ [a] := by
  rw [stripPad, List.reverse_append]
  simp [List.dropWhile_cons, ha]

theorem stripPad_append_of_ne_nil (p t : List Char) (h : stripPad t ≠ []) :
    stripPad (p ++ t) = p ++ stripPad t := by
  rw [stripPad, List.reverse_append, List.dropWhile_append]
  have hne : (t.reverse.dropWhile (fun c => c == '=')).isEmpty = false := by
    rw [List.isEmpty_eq_false]
    intro hnil
    exact h (by rw [stripPad, hnil]; rfl)
  rw [hne]
  simp [stripPad]

theorem decodeB64Body_stripPad_encodeGroups : ∀ bs : List ℕ, (∀ x ∈ bs, x < 256) →
    decodeB64Body (stripPad (encodeGroups bs)) = .ok bs := by
  intro bs
  induction bs using encodeGroups.induct with
  | case1 => intro _; rfl
  | case2 a =>
    intro hb
    have ha := hb a (by simp)
    rw [encodeGroups, show [b64char (a / 4), b64char (a % 4 * 16), '=', '='] =
        [b64char (a / 4)] ++ [b64char (a % 4 * 16), '=', '='] from rfl,
      stripPad_pad2 _ _ (b64char_ne_pad _ (by omega))]
    simp only [List.append_eq, List.cons_append, List.nil_append, decodeB64Body,
      b64val_b64char _ (show a / 4 < 64 by omega),
      b64val_b64char _ (show a % 4 * 16 < 64 by omega)]
    have : a / 4 * 4 + a % 4 * 16 / 16 = a := by omega
    rw [this]
  | case3 a b =>
    intro hb
    have ha := hb a (by simp)
    have hbb := hb b (by simp)
    rw [encodeGroups, show [b64char (a / 4), b64char (a % 4 * 16 + b / 16),
        b64char (b % 16 * 4), '='] = [b64char (a / 4), b64char (a % 4 * 16 + b / 16)] ++
        [b64char (b % 16 * 4), '='] from rfl,
      stripPad_pad1 _ _ (b64char_ne_pad _ (by omega))]
    simp only [List.append_eq, List.cons_append, List.nil_append, decodeB64Body,
      b64val_b64char _ (show a / 4 < 64 by omega),
      b64val_b64char _ (show a % 4 * 16 + b / 16 < 64 by omega),
      b64val_b64char _ (show b % 16 * 4 < 64 by omega)]
    have h1 : a / 4 * 4 + (a % 4 * 16 + b / 16) / 16 = a := by omega
    have h2 : (a % 4 * 16 + b / 16) % 16 * 16 + b % 16 * 4 / 4 = b := by omega
    rw [h1, h2]
  | case4 a b c rest ih =>
    intro hb
    have ha := hb a (by simp)
    have hbb := hb b (by simp)
    have hc := hb c (by simp)
    have hrest : ∀ x ∈ rest, x < 256 := fun x hx => hb x (by simp [hx])
    have hih := ih hrest
    have h1 : a / 4 * 4 + (a % 4 * 16 + b / 16) / 16 = a := by omega
    have h2 : (a % 4 * 16 + b / 16) % 16 * 16 + (b % 16 * 4 + c / 64) / 4 = b := by omega
    have h3 : (b % 16 * 4 + c / 64) % 4 * 64 + c % 64 = c := by omega
    rcases hrn : rest with _ | ⟨r0, rtail⟩
    · subst hrn
      rw [encodeGroups, encodeGroups,
        show [b64char (a / 4), b64char (a % 4 * 16 + b / 16), b64char (b % 16 * 4 + c / 64),
          b64char (c % 64)] = [b64char (a / 4), b64char (a % 4 * 16 + b / 16),
          b64char (b % 16 * 4 + c / 64)] ++ [b64char (c % 64)] from rfl,
        stripPad_last_ne _ _ (b64char_ne_pad _ (by omega))]
      simp only [List.append_eq, List.cons_append, List.nil_append, decodeB64Body,
        b64val_b64char _ (show a / 4 < 64 by omega),
        b64val_b64char _ (show a % 4 * 16 + b / 16 < 64 by omega),
        b64val_b64char _ (show b % 16 * 4 + c / 64 < 64 by omega),
        b64val_b64char _ (show c % 64 < 64 by omega)]
      rw [h1, h2, h3]
      rfl
    · subst hrn
      have hne : stripPad (encodeGroups (r0 :: rtail)) ≠ [] := by
        intro hnil
        rw [hnil] at hih
        simp only [decodeB64Body] at hih
        exact absurd (Except.ok.inj hih) (by simp)
      rw [encodeGroups, show b64char (a / 4) :: b64char (a % 4 * 16 + b / 16) ::
          b64char (b % 16 * 4 + c / 64) :: b64char (c % 64) ::
          encodeGroups (r0 :: rtail) = [b64char (a / 4), b64char (a % 4 * 16 + b / 16),
          b64char (b % 16 * 4 + c / 64), b64char (c % 64)] ++
          encodeGroups (r0 :: rtail) from rfl,
        stripPad_append_of_ne_nil _ _ hne]
      simp only [List.append_eq, List.cons_append, List.nil_append, decodeB64Body,
        b64val_b64char _ (show a / 4 < 64 by omega),
        b64val_b64char _ (show a % 4 * 16 + b / 16 < 64 by omega),
        b64val_b64char _ (show b % 16 * 4 + c / 64 < 64 by omega),
        b64val_b64char _ (show c % 64 < 64 by omega), hih]
      rw [h1, h2, h3]
      rfl

theorem except_error_bind (e : AudioError) (f : List ℕ → Except AudioError (List ℕ)) :
    (Except.error e >>= f : Except AudioError (List ℕ)) = .error e := rfl

theorem except_ok_bind (a : List ℕ) (f : List ℕ → Except AudioError (List ℕ)) :
    (Except.ok a >>= f : Except AudioError (List ℕ)) = f a := rfl

theorem decodeB64Body_error_of_bad : ∀ s : List Char, (∃ c ∈ s, b64val c = none) →
    decodeB64Body s = .error .malformedInput := by
  intro s
  induction s using decodeB64Body.induct with
  | case1 => rintro ⟨c, hc, _⟩; simp at hc
  | case2 c0 => intro _; rfl
  | case3 c0 c1 v0 v1 h1 h0 =>
    rintro ⟨c, hc, hv⟩
    simp only [List.mem_cons, List.not_mem_nil, or_false] at hc
    rcases hc with rfl | rfl
    · rw [h0] at hv; exact absurd hv (by simp)
    · rw [h1] at hv; exact absurd hv (by simp)
  | case4 c0 c1 hf =>
    intro _
    rcases h0 : b64val c0 with _ | v0
    · simp [decodeB64Body, h0]
    · rcases h1 : b64val c1 with _ | v1
      · simp [decodeB64Body, h0, h1]
      · exact (hf v0 v1 h0 h1).elim
  | case5 c0 c1 c2 v0 v1 v2 h2 h1 h0 =>
    rintro ⟨c, hc, hv⟩
    simp only [List.mem_cons, List.not_mem_nil, or_false] at hc
    rcases hc with rfl | rfl | rfl
    · rw [h0] at hv; exact absurd hv (by simp)
    · rw [h1] at hv; exact absurd hv (by simp)
    · rw [h2] at hv; exact absurd hv (by simp)
  | case6 c0 c1 c2 hf =>
    intro _
    rcases h0 : b64val c0 with _ | v0
    · simp [decodeB64Body, h0]
    · rcases h1 : b64val c1 with _ | v1
      · simp [decodeB64Body, h0, h1]
      · rcases h2 : b64val c2 with _ | v2
        · simp [decodeB64Body, h0, h1, h2]
        · exact (hf v0 v1 v2 h0 h1 h2).elim
  | case7 c0 c1 c2 c3 rest v0 v1 v2 v3 h3 h2 h1 h0 ih =>
    rintro ⟨c, hc, hv⟩
    simp only [List.mem_cons] at hc
    rcases hc with rfl | rfl | rfl | rfl | hcr
    · rw [h0] at hv; exact absurd hv (by simp)
    · rw [h1] at hv; exact absurd hv (by simp)
    · rw [h2] at hv; exact absurd hv (by simp)
    · rw [h3] at hv; exact absurd hv (by simp)
    · have hre := ih ⟨c, hcr, hv⟩
      simp only [decodeB64Body, h0, h1, h2, h3, hre, except_error_bind]
  | case8 c0 c1 c2 c3 rest hf =>
    intro _
    rcases h0 : b64val c0 with _ | v0
    · simp [decodeB64Body, h0]
    · rcases h1 : b64val c1 with _ | v1
      · simp [decodeB64Body, h0, h1]
      · rcases h2 : b64val c2 with _ | v2
        · simp [decodeB64Body, h0, h1, h2]
        · rcases h3 : b64val c3 with _ | v3
          · simp [decodeB64Body, h0, h1, h2, h3]
          · exact (hf v0 v1 v2 v3 h0 h1 h2 h3).elim

theorem decodeB64Body_ok_length : ∀ (s : List Char) (bs : List ℕ),
    decodeB64Body s = .ok bs → bs.length = s.length * 3 / 4 := by
  intro s
  induction s using decodeB64Body.induct with
  | case1 =>
    intro bs h
    simp only [decodeB64Body] at h
    rw [← Except.ok.inj h]
    rfl
  | case2 c0 =>
    intro bs h
    simp only [decodeB64Body] at h
    exact absurd h (by simp)
  | case3 c0 c1 v0 v1 h1 h0 =>
    intro bs h
    simp only [decodeB64Body, h0, h1] at h
    rw [← Except.ok.inj h]
    simp only [List.length_cons, List.length_nil]
  | case4 c0 c1 hf =>
    intro bs h
    rcases h0 : b64val c0 with _ | v0
    · simp only [decodeB64Body, h0] at h
      exact absurd h (by simp)
    · rcases h1 : b64val c1 with _ | v1
      · simp only [decodeB64Body, h0, h1] at h
        exact absurd h (by simp)
      · exact (hf v0 v1 h0 h1).elim
  | case5 c0 c1 c2 v0 v1 v2 h2 h1 h0 =>
    intro bs h
    simp only [decodeB64Body, h0, h1, h2] at h
    rw [← Except.ok.inj h]
    simp only [List.length_cons, List.length_nil]
  | case6 c0 c1 c2 hf =>
    intro bs h
    rcases h0 : b64val c0 with _ | v0
    · simp only [decodeB64Body, h0] at h
      exact absurd h (by simp)
    · rcases h1 : b64val c1 with _ | v1
      · simp only [decodeB64Body, h0, h1] at h
        exact absurd h (by simp)
      · rcases h2 : b64val c2 with _ | v2
        · simp only [decodeB64Body, h0, h1, h2] at h
          exact absurd h (by simp)
        · exact (hf v0 v1 v2 h0 h1 h2).elim
  | case7 c0 c1 c2 c3 rest v0 v1 v2 v3 h3 h2 h1 h0 ih =>
    intro bs h
    simp only [decodeB64Body, h0, h1, h2, h3] at h
    rcases hr : decodeB64Body rest with e | bs2
    · rw [hr, except_error_bind] at h
      exact absurd h (by simp)
    · rw [hr, except_ok_bind] at h
      have hlen := ih bs2 hr
      rw [← Except.ok.inj h]
      simp only [List.length_cons, hlen]
      omega
  | case8 c0 c1 c2 c3 rest hf =>
    intro bs h
    rcases h0 : b64val c0 with _ | v0
    · simp only [decodeB64Body, h0] at h
      exact absurd h (by simp)
    · rcases h1 : b64val c1 with _ | v1
      · simp only [decodeB64Body, h0, h1] at h
        exact absurd h (by simp)
      · rcases h2 : b64val c2 with _ | v2
        · simp only [decodeB64Body, h0, h1, h2] at h
          exact absurd h (by simp)
        · rcases h3 : b64val c3 with _ | v3
          · simp only [decodeB64Body, h0, h1, h2, h3] at h
            exact absurd h (by simp)
          · exact (hf v0 v1 v2 v3 h0 h1 h2 h3).elim

/-! ## PCM decoder support lemmas -/

theorem pcmSamples_length (bytes : List ℕ) : (pcmSamples bytes).length = bytes.length / 2 := by
  rw [pcmSamples, List.length_map, bytesToInts_length]

theorem decodePCM_ok {bytes : List ℕ} {sr : ℤ} {ch : ℕ} (hdvd : 2 * ch ∣ bytes.length)
    (hsr : 0 < sr) (hch : 1 ≤ ch) :
    decodePCM bytes sr ch = .ok ⟨deinterleave ch (pcmSamples bytes), sr.toNat⟩ := by
  rw [decodePCM, if_neg (not_not_intro hdvd),
    if_neg (by push_neg; exact ⟨by omega, by omega⟩)]

theorem decodePCM_ok_inv {bytes : List ℕ} {sr : ℤ} {ch : ℕ} {buf : DecodedAudioBuffer}
    (h : decodePCM bytes sr ch = .ok buf) :
    2 * ch ∣ bytes.length ∧ 0 < sr ∧ 1 ≤ ch ∧
      buf = ⟨deinterleave ch (pcmSamples bytes), sr.toNat⟩ := by
  by_cases h1 : 2 * ch ∣ bytes.length
  · by_cases h2 : sr ≤ 0 ∨ ch < 1
    · rw [decodePCM, if_neg (not_not_intro h1), if_pos h2] at h
      exact absurd h (by simp)
    · rw [decodePCM, if_neg (not_not_intro h1), if_neg h2] at h
      push_neg at h2
      exact ⟨h1, h2.1, h2.2, (Except.ok.inj h).symm⟩
  · rw [decodePCM, if_pos h1] at h
    exact absurd h (by simp)

theorem getD_map_intToSample (l : List ℤ) (i : ℕ) (h : i < l.length) :
    (l.map intToSample).getD i 0 = intToSample (l.getD i 0) := by
  simp [List.getD_eq_getElem?_getD, List.getElem?_map, List.getElem?_eq_getElem h]

theorem deinterleave_getD {ch : ℕ} (l : List ℚ) (c : ℕ) (hc : c < ch) :
    (deinterleave ch l).getD c [] =
      (List.range (l.length / ch)).map (fun f => l.getD (f * ch + c) 0) := by
  rw [deinterleave]
  simp [List.getD_eq_getElem?_getD, List.getElem?_map, List.getElem?_range hc]

theorem range_map_getD {n : ℕ} (g : ℕ → ℚ) (f : ℕ) (hf : f < n) :
    ((List.range n).map g).getD f 0 = g f := by
  simp [List.getD_eq_getElem?_getD, List.getElem?_map, List.getElem?_range hf]

theorem intToSample_bounds {v : ℤ} (h1 : -32768 ≤ v) (h2 : v < 32768) :
    -1 ≤ intToSample v ∧ intToSample v ≤ 1 := by
  rw [intToSample_eq]
  constructor
  · rw [le_div_iff₀ (by norm_num)]
    have : ((-32768 : ℤ) : ℚ) ≤ (v : ℚ) := by exact_mod_cast h1
    push_cast at this ⊢
    linarith
  · rw [div_le_one (by norm_num)]
    have : (v : ℚ) ≤ ((32768 : ℤ) : ℚ) := by exact_mod_cast h2.le
    push_cast at this ⊢
    linarith

/-! ## Claim theorems -/

/-- C1, counterexample: the round-trip claim fails as stated.  For the
2-byte buffer `[255, 127]` (the single int16 sample 32767), decoding at
24000 Hz mono and re-encoding yields the PCM data bytes `[254, 127]`
(sample 32766), not the original bytes: `round(32767/32768 * 32767) =
32766`. -/
theorem claim1_counterexample :
    Except.map (fun w => List.drop 44 w) ((decodePCM [255, 127] 24000 1).bind encodeWAV) =
      .ok [254, 127] ∧ [254, 127] ≠ [255, 127] :=
  ⟨by decide, by decide⟩

/-- C1 (amended): for every byte sequence `B` of length divisible by
`2 * channelCount` whose 16-bit samples do not exceed 16384, extracting the
PCM data bytes of `encodeWAV (decodePCM B sr ch)` yields exactly `B`; in
particular for `ch = 2` re-encoding restores the original interleave
order.  (Samples above 16384 lose one unit to the `32767/32768` scaling
mismatch, as the counterexample shows; negative samples always survive.) -/
theorem claim1_roundtrip (B : List ℕ) (sr : ℤ) (ch : ℕ)
    (hbytes : ∀ b ∈ B, b < 256) (hsr : 0 < sr) (hch : 1 ≤ ch)
    (hdvd : 2 * ch ∣ B.length) (hbound : ∀ v ∈ bytesToInts B, v ≤ 16384) :
    Except.map (fun w => List.drop 44 w) ((decodePCM B sr ch).bind encodeWAV) = .ok B := by
  rw [decodePCM_ok hdvd hsr hch]
  obtain ⟨n, hn⟩ := hdvd
  have hsl : (pcmSamples B).length = ch * n := by
    rw [pcmSamples_length, hn, show 2 * ch * n = 2 * (ch * n) from by ring,
      Nat.mul_div_cancel_left _ (by omega : 0 < 2)]
  set buf : DecodedAudioBuffer := ⟨deinterleave ch (pcmSamples B), sr.toNat⟩ with hbuf
  have hbind : (Except.ok buf).bind encodeWAV = encodeWAV buf := rfl
  rw [hbind]
  have hch_len : ∀ c ∈ buf.channels, c.length = numFrames buf := by
    intro c hc
    have h1 := deinterleave_channel_length c hc
    show c.length = (buf.channels.headD []).length
    rw [hbuf]
    rw [deinterleave_headD_length hch]
    exact h1
  rw [encodeWAV_ok hch_len]
  have hmapped : Except.map (fun w => List.drop 44 w)
      (Except.ok (wavHeader buf.channels.length (numFrames buf) buf.sampleRate ++ pcmData buf) :
        Except AudioError (List ℕ)) =
      .ok ((wavHeader buf.channels.length (numFrames buf) buf.sampleRate ++ pcmData buf).drop 44) :=
    rfl
  rw [hmapped]
  congr 1
  have hdrop : (wavHeader buf.channels.length (numFrames buf) buf.sampleRate ++
      pcmData buf).drop 44 = pcmData buf := by
    have h := List.drop_left (wavHeader buf.channels.length (numFrames buf) buf.sampleRate)
      (pcmData buf)
    rwa [wavHeader_length] at h
  rw [hdrop, pcmData]
  have hchans : buf.channels = deinterleave ch (pcmSamples B) := rfl
  rw [hchans, interleave_deinterleave hch (pcmSamples B) hsl, pcmSamples, List.map_map]
  have hmap : (bytesToInts B).map (floatTo16 ∘ intToSample) = bytesToInts B := by
    conv_rhs => rw [← List.map_id (bytesToInts B)]
    apply List.map_congr_left
    intro v hv
    have hlb := (bytesToInts_bounds hbytes v hv).1
    exact floatTo16_intToSample hlb (hbound v hv)
  rw [hmap, intsToBytes_bytesToInts B hbytes ⟨ch * n, by rw [hn]; ring⟩]

/-- C1 witness: the amended round-trip at the concrete 2-channel buffer
`[0, 0, 0, 128]` (samples 0 and -32768). -/
theorem claim1_witness :
    Except.map (fun w => List.drop 44 w) ((decodePCM [0, 0, 0, 128] 24000 2).bind encodeWAV) =
      .ok [0, 0, 0, 128] :=
  claim1_roundtrip [0, 0, 0, 128] 24000 2 (by decide) (by decide) (by decide) (by decide)
    (by decide)

/-- C2, counterexample: the conversion does not multiply every clamped
sample by 32767 — at the claim's own pinned input -1.5 (= `mkRat (-3) 2`)
the encoder produces -32768 while clamp-then-multiply-by-32767 produces
-32767, so the claim's algorithm and its -32768 test value contradict each
other. -/
theorem claim2_counterexample :
    floatTo16 (mkRat (-3) 2) = -32768 ∧ floatTo16ClaimFormula (mkRat (-3) 2) = -32767 ∧
      mkRat (-3) 2 = (-3 : ℚ) / 2 :=
  ⟨by decide, by decide, by rw [Rat.mkRat_eq_div]; norm_num⟩

/-- C2 (amended): `encodeWAV` converts each float sample by clamping to
`[-1.0, 1.0]`, multiplying non-negative samples by 32767 and negative
samples by 32768, and rounding to nearest; in particular 1.5 (= `mkRat 3 2`)
encodes to 32767 and -1.5 (= `mkRat (-3) 2`) encodes to -32768. -/
theorem claim2_conversion :
    (∀ x : ℚ, floatTo16 x =
      round (max (-1) (min 1 x) * (if x < 0 then (32768 : ℚ) else 32767))) ∧
    floatTo16 (mkRat 3 2) = 32767 ∧ floatTo16 (mkRat (-3) 2) = -32768 :=
  ⟨floatTo16_eq, by decide, by decide⟩

/-- C3: for every `DecodedAudioBuffer` with channels of equal length, the
output of `encodeWAV` is a 44-byte RIFF/WAVE PCM header followed by the
sample data, where bytes 4-7 equal `36 + numFrames * channelCount * 2`,
bytes 24-27 equal the sample rate, bytes 34-35 equal 16 (all little-endian),
with ASCII markers RIFF, WAVE, fmt and data at offsets 0, 8, 12 and 36. -/
theorem claim3_header (b : DecodedAudioBuffer) (h : ∀ c ∈ b.channels, c.length = numFrames b) :
    ∃ w, encodeWAV b = .ok w ∧
      w.length = 44 + numFrames b * b.channels.length * 2 ∧
      extractBytes 0 4 w = asciiBytes "RIFF" ∧
      extractBytes 4 4 w = u32le (36 + numFrames b * b.channels.length * 2) ∧
      extractBytes 8 4 w = asciiBytes "WAVE" ∧
      extractBytes 12 4 w = asciiBytes "fmt " ∧
      extractBytes 24 4 w = u32le b.sampleRate ∧
      extractBytes 34 2 w = u16le 16 ∧
      extractBytes 36 4 w = asciiBytes "data" ∧
      extractBytes 40 4 w = u32le (numFrames b * b.channels.length * 2) ∧
      w.drop 44 = pcmData b := by
  refine ⟨_, encodeWAV_ok h, ?_, ?_, ?_, ?_, ?_, ?_, ?_, ?_, ?_, ?_⟩
  · rw [List.length_append, wavHeader_length, pcmData_length h]
    ring
  · rw [wavHeader_explicit]; rfl
  · rw [wavHeader_explicit]; rfl
  · rw [wavHeader_explicit]; rfl
  · rw [wavHeader_explicit]; rfl
  · rw [wavHeader_explicit]; rfl
  · rw [wavHeader_explicit]; rfl
  · rw [wavHeader_explicit]; rfl
  · rw [wavHeader_explicit]; rfl
  · rw [wavHeader_explicit]; rfl

/-- C3 witness: the header properties at the concrete one-channel,
one-frame buffer with sample 0 at 24000 Hz. -/
theorem claim3_witness :
    ∃ w, encodeWAV ⟨[[0]], 24000⟩ = .ok w ∧
      w.length = 44 + numFrames ⟨[[0]], 24000⟩ * (⟨[[0]], 24000⟩ : DecodedAudioBuffer).channels.length * 2 ∧
      extractBytes 0 4 w = asciiBytes "RIFF" ∧
      extractBytes 4 4 w = u32le (36 + numFrames ⟨[[0]], 24000⟩ * (⟨[[0]], 24000⟩ : DecodedAudioBuffer).channels.length * 2) ∧
      extractBytes 8 4 w = asciiBytes "WAVE" ∧
      extractBytes 12 4 w = asciiBytes "fmt " ∧
      extractBytes 24 4 w = u32le (⟨[[0]], 24000⟩ : DecodedAudioBuffer).sampleRate ∧
      extractBytes 34 2 w = u16le 16 ∧
      extractBytes 36 4 w = asciiBytes "data" ∧
      extractBytes 40 4 w = u32le (numFrames ⟨[[0]], 24000⟩ * (⟨[[0]], 24000⟩ : DecodedAudioBuffer).channels.length * 2) ∧
      w.drop 44 = pcmData ⟨[[0]], 24000⟩ :=
  claim3_header ⟨[[0]], 24000⟩ (by decide)


/-- C4: for every byte buffer of valid layout, `decodePCM` produces `ch`
channels, each of length `(bytes.length / 2) / ch`, whose sample at frame
`f` of channel `c` is the little-endian int16 at position `f * ch + c`
divided by 32768.0 (round-robin interleave order), and every output sample
lies in `[-1.0, 1.0]`. -/
theorem claim4_decodePCM (bytes : List ℕ) (sr : ℤ) (ch : ℕ) (buf : DecodedAudioBuffer)
    (hbytes : ∀ b ∈ bytes, b < 256) (h : decodePCM bytes sr ch = .ok buf) :
    buf.channels.length = ch ∧
    (∀ c ∈ buf.channels, c.length = bytes.length / 2 / ch) ∧
    (∀ c, c < ch → ∀ f, f < bytes.length / 2 / ch →
      (buf.channels.getD c []).getD f 0 =
        ((toInt16 (bytes.getD (2 * (f * ch + c)) 0 +
          256 * bytes.getD (2 * (f * ch + c) + 1) 0) : ℤ) : ℚ) / 32768) ∧
    (∀ c ∈ buf.channels, ∀ x ∈ c, -1 ≤ x ∧ x ≤ 1) := by
  obtain ⟨hdvd, hsr, hch, rfl⟩ := decodePCM_ok_inv h
  refine ⟨by simp [deinterleave], ?_, ?_, ?_⟩
  · intro c hc
    have h1 := deinterleave_channel_length c hc
    rwa [pcmSamples_length] at h1
  · intro c hc f hf
    have hn : (pcmSamples bytes).length = bytes.length / 2 := pcmSamples_length bytes
    show ((deinterleave ch (pcmSamples bytes)).getD c []).getD f 0 = _
    rw [deinterleave_getD _ c hc, hn, range_map_getD _ f hf]
    have hidx : f * ch + c < bytes.length / 2 := by
      have h2 : (f + 1) * ch ≤ bytes.length / 2 / ch * ch := Nat.mul_le_mul_right ch hf
      have h3 : bytes.length / 2 / ch * ch ≤ bytes.length / 2 := Nat.div_mul_le_self _ ch
      have h4 : f * ch + c < (f + 1) * ch := by
        rw [Nat.succ_mul]
        omega
      omega
    rw [pcmSamples, getD_map_intToSample _ _ (by rwa [bytesToInts_length]),
      bytesToInts_getD bytes (f * ch + c) (by omega), intToSample_eq]
  · intro c hc x hx
    rw [deinterleave] at hc
    obtain ⟨i, _, rfl⟩ := List.mem_map.mp hc
    obtain ⟨f, _, rfl⟩ := List.mem_map.mp hx
    by_cases hlt : f * ch + i < (pcmSamples bytes).length
    · have hmem : (pcmSamples bytes).getD (f * ch + i) 0 ∈ pcmSamples bytes := by
        rw [List.getD_eq_getElem _ _ hlt]
        exact List.getElem_mem hlt
      rw [pcmSamples] at hmem
      obtain ⟨v, hv, hveq⟩ := List.mem_map.mp hmem
      have hb := bytesToInts_bounds hbytes v hv
      rw [pcmSamples, ← hveq]
      exact intToSample_bounds hb.1 hb.2
    · rw [List.getD_eq_default _ _ (by omega)]
      norm_num

/-- C4 witness: the decode properties at the concrete 4-byte buffer
`[0, 0, 255, 127]` decoded as 2 channels at 24000 Hz. -/
theorem claim4_witness :
    (⟨[[0], [mkRat 32767 32768]], 24000⟩ : DecodedAudioBuffer).channels.length = 2 ∧
    (∀ c ∈ (⟨[[0], [mkRat 32767 32768]], 24000⟩ : DecodedAudioBuffer).channels,
      c.length = ([0, 0, 255, 127] : List ℕ).length / 2 / 2) ∧
    (∀ c, c < 2 → ∀ f, f < ([0, 0, 255, 127] : List ℕ).length / 2 / 2 →
      ((⟨[[0], [mkRat 32767 32768]], 24000⟩ : DecodedAudioBuffer).channels.getD c []).getD f 0 =
        ((toInt16 (([0, 0, 255, 127] : List ℕ).getD (2 * (f * 2 + c)) 0 +
          256 * ([0, 0, 255, 127] : List ℕ).getD (2 * (f * 2 + c) + 1) 0) : ℤ) : ℚ) / 32768) ∧
    (∀ c ∈ (⟨[[0], [mkRat 32767 32768]], 24000⟩ : DecodedAudioBuffer).channels,
      ∀ x ∈ c, -1 ≤ x ∧ x ≤ 1) :=
  claim4_decodePCM [0, 0, 255, 127] 24000 2 ⟨[[0], [mkRat 32767 32768]], 24000⟩
    (by decide) (by decide)

/-- C5, counterexample: the "fails with InvalidParameterError exactly when
sampleRate ≤ 0 or channelCount < 1" direction is false: at `bytes = [0]`,
`sampleRate = 0`, `channelCount = 1` the parameter condition holds, yet
the decoder reports the layout error (the layout check runs first). -/
theorem claim5_counterexample :
    decodePCM [0] 0 1 = .error .invalidSampleLayout ∧
    decodePCM [0] 0 1 ≠ .error .invalidParameter ∧
    ((0 : ℤ) ≤ 0 ∨ (1 : ℕ) < 1) :=
  ⟨by decide, by decide, Or.inl (by decide)⟩

/-- C5 (amended): `decodePCM` fails with `InvalidSampleLayoutError` exactly
when `bytes.length` is not divisible by `2 * channelCount`; when the layout
is valid, it fails with `InvalidParameterError` exactly when
`sampleRate ≤ 0` or `channelCount < 1`.  Failures are returned synchronously
as values to the immediate caller (the decoder is a pure function into
`Except`), with no retries. -/
theorem claim5_errors (bytes : List ℕ) (sr : ℤ) (ch : ℕ) :
    (decodePCM bytes sr ch = .error .invalidSampleLayout ↔ ¬ (2 * ch ∣ bytes.length)) ∧
    (decodePCM bytes sr ch = .error .invalidParameter ↔
      (2 * ch ∣ bytes.length) ∧ (sr ≤ 0 ∨ ch < 1)) := by
  by_cases h1 : 2 * ch ∣ bytes.length
  · by_cases h2 : sr ≤ 0 ∨ ch < 1
    · rw [decodePCM, if_neg (not_not_intro h1), if_pos h2]
      exact ⟨by simp [h1], by simp [h1]; omega⟩
    · rw [decodePCM, if_neg (not_not_intro h1), if_neg h2]
      exact ⟨by simp [h1], by simp [h1]; omega⟩
  · rw [decodePCM, if_pos h1]
    exact ⟨by simp [h1], by simp [h1]⟩

/-- C6: empty input is not an error anywhere in the pipeline:
`decode ""` returns a zero-length byte buffer, `decodePCM` of the empty
buffer at 24000 Hz mono returns one channel of length 0, and `encodeWAV` of
that result is exactly the 44 header bytes with `dataSize = 0` (bytes
40-43) and no data bytes. -/
theorem claim6_empty :
    decode "" = .ok [] ∧
    decodePCM [] 24000 1 = .ok ⟨[[]], 24000⟩ ∧
    encodeWAV ⟨[[]], 24000⟩ = .ok (wavHeader 1 0 24000) ∧
    (wavHeader 1 0 24000).length = 44 ∧
    extractBytes 40 4 (wavHeader 1 0 24000) = u32le 0 ∧
    (wavHeader 1 0 24000).drop 44 = [] := by
  refine ⟨by decide, by decide, by decide, by decide, by decide, by decide⟩

/-- C7: the base64 decoder fails with `MalformedInputError` for every input
string containing a character outside the base64 alphabet plus `=` padding,
and for every accepted input returns a byte buffer of length
`floor(input_length_without_padding * 3 / 4)` (the padding characters are
the stripped trailing `=` run); the decoder is a pure function, so there
are no side effects. -/
theorem claim7_base64 :
    (∀ s : String, (∃ c ∈ s.data, c ≠ '=' ∧ b64val c = none) →
      decode s = .error .malformedInput) ∧
    (∀ (s : String) (bs : List ℕ), decode s = .ok bs →
      bs.length = (stripPad s.data).length * 3 / 4) := by
  constructor
  · rintro s ⟨c, hc, hne, hv⟩
    rw [decode, decodeB64]
    exact decodeB64Body_error_of_bad _ ⟨c, mem_stripPad hc hne, hv⟩
  · intro s bs h
    rw [decode, decodeB64] at h
    exact decodeB64Body_ok_length _ bs h

/-- C7 witness: the dollar sign is rejected, and `"AA=="` decodes to one
byte as the length formula requires. -/
theorem claim7_witness :
    decode "A$" = .error .malformedInput ∧
    ([(0 : ℕ)]).length = (stripPad ("AA==" : String).data).length * 3 / 4 :=
  ⟨claim7_base64.1 "A$" ⟨'$', by decide, by decide, by decide⟩,
    claim7_base64.2 "AA==" [0] (by decide)⟩

/-- C8: for every byte sequence, decoding the output of a reference base64
encoder restores the bytes: `decode (base64Encode bytes) = ok bytes`. -/
theorem claim8_roundtrip (bytes : List ℕ) (h : ∀ x ∈ bytes, x < 256) :
    decode (base64Encode bytes) = .ok bytes := by
  rw [decode, base64Encode]
  show decodeB64 (encodeGroups bytes) = .ok bytes
  rw [decodeB64]
  exact decodeB64Body_stripPad_encodeGroups bytes h

/-- C8 witness: the round-trip at the concrete bytes `[77, 97, 110, 0, 255]`
(covering a full group, padding, and both byte extremes). -/
theorem claim8_witness : decode (base64Encode [77, 97, 110, 0, 255]) = .ok [77, 97, 110, 0, 255] :=
  claim8_roundtrip [77, 97, 110, 0, 255] (by decide)

/-- C9: in every successful run of the audio branch of `handleGenerate`
(`src/App.tsx` lines 114-119), the stages run in the fixed order
base64-decode, PCM-decode, WAV-encode, each consuming exactly its
predecessor\x27s output, and the PCM decoder is always invoked with sample
rate 24000 and channel count 1. -/
theorem claim9_pipeline (s : String) (w : List ℕ)
    (h : (handleGenerateAudioTrace s).2 = .ok w) :
    ∃ bytes buf, decode s = .ok bytes ∧ decodePCM bytes 24000 1 = .ok buf ∧
      encodeWAV buf = .ok w ∧
      (handleGenerateAudioTrace s).1 =
        [.base64Decode s, .pcmDecode bytes 24000 1, .wavEncode buf] := by
  rcases hd : decode s with e | bytes
  · rw [handleGenerateAudioTrace] at h
    simp only [hd] at h
    exact absurd h (by simp)
  · rcases hp : decodePCM bytes 24000 1 with e | buf
    · rw [handleGenerateAudioTrace] at h
      simp only [hd, hp] at h
      exact absurd h (by simp)
    · rw [handleGenerateAudioTrace] at h ⊢
      simp only [hd, hp] at h ⊢
      exact ⟨bytes, buf, rfl, hp, h, rfl⟩

/-- C9 witness: the empty payload runs all three stages in order and yields
the 44-byte empty WAV. -/
theorem claim9_witness :
    ∃ bytes buf, decode "" = .ok bytes ∧ decodePCM bytes 24000 1 = .ok buf ∧
      encodeWAV buf = .ok (wavHeader 1 0 24000) ∧
      (handleGenerateAudioTrace "").1 =
        [.base64Decode "", .pcmDecode bytes 24000 1, .wavEncode buf] :=
  claim9_pipeline "" (wavHeader 1 0 24000) (by decide)

/-- C10: whenever `generateMovieVoiceover` returns normally, the
`audioBase64` field of its result is a non-empty string; if the
speech-generation response carries no inline audio data the function throws
instead of returning; and a failure confined to thumbnail generation does
not cause a throw and yields a result with `thumbnailBase64 = null`. -/
theorem claim10_audio :
    (∀ (script : String) (speech : Option String) (thumb : ThumbnailOutcome) (r : GenResult),
      generateMovieVoiceover script speech thumb = .ok r → r.audioBase64 ≠ "") ∧
    (∀ (script : String) (thumb : ThumbnailOutcome),
      generateMovieVoiceover script none thumb = .error "Failed to generate audio.") ∧
    (∀ (script a : String), a ≠ "" →
      ∃ r, generateMovieVoiceover script (some a) .failure = .ok r ∧
        r.thumbnailBase64 = none) := by
  refine ⟨?_, ?_, ?_⟩
  · intro script speech thumb r h
    match speech with
    | none => simp [generateMovieVoiceover] at h
    | some a =>
      simp only [generateMovieVoiceover] at h
      by_cases ha : a = ""
      · rw [if_pos ha] at h
        exact absurd h (by simp)
      · rw [if_neg ha] at h
        rw [← Except.ok.inj h]
        simpa using ha
  · intro script thumb
    rfl
  · intro script a ha
    refine ⟨⟨script, a, none⟩, ?_, rfl⟩
    simp only [generateMovieVoiceover]
    rw [if_neg ha]

/-- C10 witness: a non-empty voice clip with a failed thumbnail generation
returns normally with a null thumbnail, and a missing speech payload
throws. -/
theorem claim10_witness :
    ((⟨"s", "voice", none⟩ : GenResult).audioBase64 ≠ "") ∧
    generateMovieVoiceover "s" none .failure = .error "Failed to generate audio." ∧
    (∃ r, generateMovieVoiceover "s" (some "voice") .failure = .ok r ∧
      r.thumbnailBase64 = none) :=
  ⟨claim10_audio.1 "s" (some "voice") .failure ⟨"s", "voice", none⟩ (by decide),
    claim10_audio.2.1 "s" .failure,
    claim10_audio.2.2 "s" "voice" (by decide)⟩
